import Mathlib

/-
Verification of the BiblioX harmonization / deduplication pipeline and the
co-occurrence graph builder (src/harmonize.py, src/network.py, src/utils_io.py),
via a shallow embedding of the relevant functions.
-/

namespace BiblioX

/-! ## Character and list utilities shared by the normalizers -/

/-- ASCII whitespace: the characters Python's `str.strip` and the regex
class `\s` match on ASCII text. -/
def isWs (c : Char) : Bool :=
  c == ' ' || c == '\t' || c == '\n' || c == '\r' || c == '\x0b' || c == '\x0c'

/-- Strip whitespace from both ends of a character list (Python `str.strip`). -/
def stripWs (l : List Char) : List Char :=
  ((l.dropWhile isWs).reverse.dropWhile isWs).reverse

/-- Keep-first deduplication by key: the semantics of `dict.fromkeys` and of
pandas `drop_duplicates(subset=key, keep="first")`. `seen` holds the keys of
the elements already kept. -/
def dedupeByAux {α κ : Type} [DecidableEq κ] (key : α → κ) (seen : List κ) :
    List α → List α
  | [] => []
  | r :: rs =>
    if key r ∈ seen then dedupeByAux key seen rs
    else r :: dedupeByAux key (key r :: seen) rs

/-- Keep-first deduplication by key, starting from no keys seen. -/
def dedupeBy {α κ : Type} [DecidableEq κ] (key : α → κ) (l : List α) : List α :=
  dedupeByAux key [] l

/-- Split a character list at every character belonging to `seps`
(Python `re.split` on a character class): splitting the empty list yields
one empty group, and consecutive separators yield empty groups. -/
def splitOnChars (seps : List Char) : List Char → List (List Char)
  | [] => [[]]
  | c :: cs =>
    let rest := splitOnChars seps cs
    if c ∈ seps then [] :: rest
    else
      match rest with
      | [] => [[c]]
      | g :: gs => (c :: g) :: gs

/-! ## `_norm_authors` (harmonize.py lines 61-68) -/

/-- Case-insensitive match of the literal `et al` at the head of the list
(the space in the pattern is a literal space); returns the remainder. -/
def etAlHead : List Char → Option (List Char)
  | c1 :: c2 :: c3 :: c4 :: c5 :: rest =>
    if c1.toLower == 'e' && c2.toLower == 't' && c3 == ' ' &&
       c4.toLower == 'a' && c5.toLower == 'l'
    then some rest else none
  | _ => none

/-- The optional `\.?` part of the pattern: drop one leading dot. -/
def dropDot : List Char → List Char
  | '.' :: r => r
  | r => r

/-- One attempted match of the regex `\s*et al\.?\s*` (flags=re.I) at the
current position; returns the remainder after the whole match. -/
def etAlMatch (l : List Char) : Option (List Char) :=
  match etAlHead (l.dropWhile isWs) with
  | none => none
  | some r => some ((dropDot r).dropWhile isWs)

/-- `re.sub(r"\s*et al\.?\s*", "", txt, flags=re.I)` with explicit fuel:
scan left to right, deleting every match. A successful match consumes at
least five characters and a failed one emits one, so fuel equal to the
length of the input (see `subEtAl`) never runs out. -/
def subEtAlF : Nat → List Char → List Char
  | 0, l => l
  | fuel + 1, l =>
    match etAlMatch l with
    | some r => subEtAlF fuel r
    | none =>
      match l with
      | [] => []
      | c :: cs => c :: subEtAlF fuel cs

/-- `re.sub(r"\s*et al\.?\s*", "", txt, flags=re.I)`. -/
def subEtAl (l : List Char) : List Char :=
  subEtAlF l.length l

/-- `_norm_authors` before the final join: unify `|` and `,` to `;`, delete
`et al` tokens, split on `;` and `&`, strip each part, drop empty parts,
keep-first dedupe. -/
def norm_authors_parts (txt : Option String) : List String :=
  match txt with
  | none => []    -- pd.isna(txt)
  | some s =>
    let l := s.data.map (fun c => if c == '|' then ';' else c)
    let l := l.map (fun c => if c == ',' then ';' else c)
    let l := subEtAl l
    let parts := (splitOnChars [';', '&'] l).map stripWs
    let parts := parts.filter (fun p => !p.isEmpty)
    dedupeBy id (parts.map (fun p => String.mk p))

/-- `_norm_authors` from harmonize.py: the parts joined with `"; "`. -/
def norm_authors (txt : Option String) : String :=
  String.intercalate "; " (norm_authors_parts txt)

/-! ## `_norm_keywords` (harmonize.py lines 71-78) -/

/-- `_norm_keywords` from harmonize.py: NaN or blank input yields `[]`;
otherwise delete the characters `[ ] '`, split on `;` `,` `/`, strip and
lowercase each part, drop empty parts, keep-first dedupe. -/
def norm_keywords (txt : Option String) : List String :=
  match txt with
  | none => []
  | some s =>
    if (stripWs s.data).isEmpty then []
    else
      let l := s.data.filter (fun c => !(c == '[' || c == ']' || c == '\''))
      let parts := (splitOnChars [';', ',', '/'] l).map
        (fun p => (stripWs p).map Char.toLower)
      let parts := parts.filter (fun p => !p.isEmpty)
      dedupeBy id (parts.map (fun p => String.mk p))

/-! ## `_norm_doi` (harmonize.py lines 81-87) -/

/-- The host part of the resolver pattern: `(dx\.)?doi\.org/` matched at the
head of the list; returns the remainder. The two alternatives never match at
the same position, so the order of the tests is irrelevant. -/
def doiHost (l : List Char) : Option (List Char) :=
  if l.take 8 = "doi.org/".data then some (l.drop 8)
  else if l.take 11 = "dx.doi.org/".data then some (l.drop 11)
  else none

/-- The regex `https?://(dx\.)?doi\.org/` matched at the head of the list;
returns the remainder after the match. -/
def doiUrlHead (l : List Char) : Option (List Char) :=
  if l.take 7 = "http://".data then doiHost (l.drop 7)
  else if l.take 8 = "https://".data then doiHost (l.drop 8)
  else none

/-- `re.sub(r"(https?://(dx\.)?doi\.org/)", "", s)` with explicit fuel:
scan left to right, deleting every match. A successful match consumes at
least fifteen characters and a failed one emits one, so fuel equal to the
length of the input (see `subDoiUrl`) never runs out. -/
def subDoiUrlF : Nat → List Char → List Char
  | 0, l => l
  | fuel + 1, l =>
    match doiUrlHead l with
    | some r => subDoiUrlF fuel r
    | none =>
      match l with
      | [] => []
      | c :: cs => c :: subDoiUrlF fuel cs

/-- `re.sub(r"(https?://(dx\.)?doi\.org/)", "", s)`. -/
def subDoiUrl (l : List Char) : List Char :=
  subDoiUrlF l.length l

/-- `_norm_doi` from harmonize.py: NaN yields `""`; otherwise strip,
lowercase, then delete every resolver-URL occurrence. -/
def norm_doi (txt : Option String) : String :=
  match txt with
  | none => ""
  | some s => String.mk (subDoiUrl ((stripWs s.data).map Char.toLower))

/-! ## Canonical records and `merge_and_dedupe` (harmonize.py lines 143-166) -/

/-- One row of the canonical table. `none` models a pandas missing value
(NaN). Fields not involved in the partition test or the dedup keys are
carried through `merge_and_dedupe` unchanged. -/
structure Record where
  title : Option String := none
  authors : Option String := none
  year : Option Int := none
  source : Option String := none
  document_type : Option String := none
  doi : Option String := none
  cited_by : Option Int := none
  author_keywords : List String := []
  index_keywords : List String := []
  abstract : Option String := none
  references : Option String := none
  affiliations : Option String := none
  countries : Option String := none
  source_db : Option String := none
deriving DecidableEq

/-- Python `str()` of a cell as pandas `astype(str)` applies it:
NaN prints as `"nan"`. -/
def cellStr (o : Option String) : String :=
  match o with
  | none => "nan"
  | some s => s

/-- The partition test `df["doi"].astype(str).str.len() > 0`. -/
def hasDoi (r : Record) : Bool :=
  0 < (cellStr r.doi).length

/-- `x.split(";")[0] if isinstance(x, str) else ""` (the `first_author`
helper column computed inside `merge_and_dedupe`): the characters before the
first `;`, or the whole string if it has none. -/
def firstAuthor (r : Record) : String :=
  match r.authors with
  | none => ""
  | some s => String.mk (s.data.takeWhile (fun c => !(c == ';')))

/-- The composite dedup key `["title", "year", "first_author"]` used for the
records without DOI. pandas `drop_duplicates` treats NaN cells as equal,
matching `Option` equality. -/
def noDoiKey (r : Record) : Option String × Option Int × String :=
  (r.title, r.year, firstAuthor r)

/-- `dropna(subset=["title"], how="all")` keeps the rows whose title cell is
not NaN. -/
def titled (r : Record) : Bool :=
  r.title.isSome

/-- `merge_and_dedupe` from harmonize.py. The early return for an empty
input list and the `no_doi.empty` branch coincide with the general path
(concatenating nothing and deduplicating nothing both yield `[]`), and the
`first_author` helper column is modeled as the computed key `noDoiKey`. -/
def merge_and_dedupe (dfs : List (List Record)) : List Record :=
  let df := dfs.flatten
  let df := df.filter titled  -- dropna(subset=["title"])
  let withDoi := df.filter hasDoi
  let noDoi := df.filter (fun r => !hasDoi r)
  let dfDoi := dedupeBy (fun r => r.doi) withDoi
  let dfNoDoi := dedupeBy noDoiKey noDoi
  dfDoi ++ dfNoDoi

/-! ## network.py: `_normalize_entities`, `_subgraph_prune`, graph builders

An undirected simple graph is modeled as an association list from edge keys
to weights. Every edge is inserted with its endpoints in sorted order (both
builders iterate over `sorted(set(...))`), so one ordered key per unordered
pair is faithful to the networkx graph. -/

/-- `_normalize_entities`: split an authors cell on `;`, strip each part,
drop empty parts; non-string cells yield `[]`. -/
def normalize_entities (txt : Option String) : List String :=
  match txt with
  | none => []
  | some s =>
    ((splitOnChars [';'] s.data).map (fun p => String.mk (stripWs p))).filter
      (fun t => !t.isEmpty)

/-- Lexicographic code-point comparison of character lists: Python's
string `<=`. -/
def lexLe : List Char → List Char → Bool
  | [], _ => true
  | _ :: _, [] => false
  | a :: as, b :: bs => if a = b then lexLe as bs else decide (a < b)

/-- Insert a string into an ascending list, before the first element it
compares `<=` to. -/
def insertSorted (a : String) : List String → List String
  | [] => [a]
  | b :: bs => if lexLe a.data b.data then a :: b :: bs else b :: insertSorted a bs

/-- Python `sorted(set(l))` for strings: unique elements in increasing
lexicographic order, via insertion sort of the deduplicated list. -/
def sortedSet (l : List String) : List String :=
  (l.dedup).foldr insertSorted []

/-- Edge list of a weighted undirected graph: one `(endpoints, weight)` entry
per edge, in insertion order. -/
abbrev Edges := List ((String × String) × Nat)

/-- `G.add_edge(a, b, weight = G[a][b]["weight"] + 1 if G.has_edge(a, b) else 1)`. -/
def bumpEdge : Edges → (String × String) → Edges
  | [], e => [(e, 1)]
  | (e', w) :: rest, e =>
    if e' = e then (e', w + 1) :: rest else (e', w) :: bumpEdge rest e

/-- The inner `for j in range(i+1, len(row))` loop: bump the pair of `a` with
every later entry. -/
def addPairsFrom (es : Edges) (a : String) (rest : List String) : Edges :=
  rest.foldl (fun es b => bumpEdge es (a, b)) es

/-- The double loop `for i ... for j in range(i+1, ...)`: bump every ordered
pair of the (sorted, duplicate-free) entity list. -/
def addPairs : Edges → List String → Edges
  | es, [] => es
  | es, a :: rest => addPairs (addPairsFrom es a rest) rest

/-- The nodes of the graph: edge endpoints in insertion order (networkx adds
both endpoints of every new edge as nodes). -/
def edgeNodes (es : Edges) : List String :=
  dedupeBy id ((es.map (fun e => [e.1.1, e.1.2])).flatten)

/-- networkx `G.degree(n)`: the number of incident edges, which equals the
number of distinct neighbors in a simple graph. -/
def degree (es : Edges) (n : String) : Nat :=
  (es.filter (fun e => e.1.1 == n || e.1.2 == n)).length

/-- A pruned graph: surviving node list and surviving edge list. The node
attributes (`degree`, `freq`, `community`) set by the Python code are
recomputable from these and are not modeled. -/
structure PrunedGraph where
  nodes : List String
  edges : Edges
deriving DecidableEq

/-- `_subgraph_prune`: keep the nodes whose degree in `G` is at least
`min_degree`, and take the induced subgraph. -/
def subgraph_prune (es : Edges) (minDegree : Nat) : PrunedGraph :=
  let keep := (edgeNodes es).filter (fun n => minDegree ≤ degree es n)
  { nodes := keep
    edges := es.filter (fun e => keep.contains e.1.1 && keep.contains e.1.2) }

/-- The full (pre-prune) co-authorship edge list: for each row of the
`authors` column (`fillna("")`), add all pairs of `sorted(set(entities))`. -/
def coauthEdges (rows : List (Option String)) : Edges :=
  rows.foldl
    (fun es c => addPairs es (sortedSet (normalize_entities (some (c.getD ""))))) []

/-- `coauthorship_graph` from network.py: build the full graph, then prune by
degree. -/
def coauthorship_graph (rows : List (Option String)) (minFreq : Nat) : PrunedGraph :=
  subgraph_prune (coauthEdges rows) minFreq

/-- A keyword frequency counter (`collections.Counter`), as an association
list in insertion order; absent keys count 0. -/
abbrev FreqMap := List (String × Nat)

/-- `freq[kw] += 1`. -/
def bumpFreq : FreqMap → String → FreqMap
  | [], k => [(k, 1)]
  | (k', w) :: rest, k =>
    if k' = k then (k', w + 1) :: rest else (k', w) :: bumpFreq rest k

/-- Counter lookup with default 0 (the first entry for a key is the only
one, since `bumpFreq` updates in place). -/
def getFreq : FreqMap → String → Nat
  | [], _ => 0
  | (k', w) :: rest, k => if k' = k then w else getFreq rest k

/-- One iteration of the record loop in `keyword_cooccurrence_graph`: rows
that are not a list, or have fewer than two entries, are skipped entirely;
otherwise each distinct keyword's frequency is bumped once and all pairs are
added. -/
def kwStep (acc : FreqMap × Edges) (row : Option (List String)) : FreqMap × Edges :=
  match row with
  | none => acc
  | some l =>
    if l.length < 2 then acc
    else
      let r := sortedSet l
      (r.foldl bumpFreq acc.1, addPairs acc.2 r)

/-- The frequency counter and full edge list after the record loop of
`keyword_cooccurrence_graph`. -/
def kwBuild (rows : List (Option (List String))) : FreqMap × Edges :=
  rows.foldl kwStep ([], [])

/-- `keyword_cooccurrence_graph` from network.py: build, then keep the nodes
with frequency at least `min_freq` and the induced subgraph. Returns the
pruned graph and the frequency counter (the Python function returns the
counter as a Series sorted by value; the sort is presentational and is not
modeled). -/
def keyword_cooccurrence_graph (rows : List (Option (List String)))
    (minFreq : Nat) : PrunedGraph × FreqMap :=
  let b := kwBuild rows
  let keep := (edgeNodes b.2).filter (fun k => minFreq ≤ getFreq b.1 k)
  ({ nodes := keep
     edges := b.2.filter (fun e => keep.contains e.1.1 && keep.contains e.1.2) },
   b.1)

/-! ## utils_io.py: source detection and the harmonize dispatch

Raw tables are modeled positionally: a list of column names and rows of
cells aligned with it. A cell is either a scalar (`text`, with `none` for
NaN) or a list of strings (`tags`, produced by keyword normalization; raw
CSV tables contain only scalars). -/

inductive Cell where
  | text : Option String → Cell
  | tags : List String → Cell
deriving DecidableEq

structure Table where
  cols : List String
  rows : List (List Cell)
deriving DecidableEq

def SCOPUS_MAP : List (String × String) :=
  [("Authors", "authors"), ("Author(s) ID", "author_ids"), ("Title", "title"),
   ("Year", "year"), ("Source title", "source"), ("Cited by", "cited_by"),
   ("Author Keywords", "author_keywords"), ("Index Keywords", "index_keywords"),
   ("Affiliations", "affiliations"), ("DOI", "doi"), ("Abstract", "abstract"),
   ("References", "references"), ("Document Type", "document_type"),
   ("Country/Territory", "countries")]

def WOS_MAP : List (String × String) :=
  [("AU", "authors"), ("AF", "authors_full"), ("TI", "title"), ("PY", "year"),
   ("SO", "source"), ("TC", "cited_by"), ("DE", "author_keywords"),
   ("ID", "index_keywords"), ("C1", "affiliations"), ("DI", "doi"),
   ("AB", "abstract"), ("CR", "references"), ("DT", "document_type"),
   ("CU", "countries")]

def CANONICAL : List String :=
  ["title", "authors", "year", "source", "document_type", "doi", "cited_by",
   "author_keywords", "index_keywords", "abstract", "references",
   "affiliations", "countries", "source_db"]

/-- `df.rename(columns=m)`. -/
def renameCols (m : List (String × String)) (cols : List String) : List String :=
  cols.map (fun c =>
    match m.find? (fun p => p.1 == c) with
    | some p => p.2
    | none => c)

/-- The cell of a row under a column name (first matching column). -/
def getCell (cols : List String) (row : List Cell) (name : String) : Cell :=
  match (cols.zip row).find? (fun p => p.1 == name) with
  | some p => p.2
  | none => .text none

/-- `df[name] = f(row)`: overwrite an existing column, or append a new one. -/
def setColWith (t : Table) (name : String) (f : List Cell → Cell) : Table :=
  if t.cols.contains name then
    { cols := t.cols
      rows := t.rows.map (fun row =>
        (t.cols.zip row).map (fun p => if p.1 == name then f row else p.2)) }
  else
    { cols := t.cols ++ [name]
      rows := t.rows.map (fun row => row ++ [f row]) }

/-- `df[name] = df[name].map(f)`. -/
def mapCol (t : Table) (name : String) (f : Cell → Cell) : Table :=
  { cols := t.cols
    rows := t.rows.map (fun row =>
      (t.cols.zip row).map (fun p => if p.1 == name then f p.2 else p.2)) }

/-- `df.reindex(columns=cols, fill_value="")`. -/
def reindexTo (t : Table) (cols : List String) (fill : Cell) : Table :=
  { cols := cols
    rows := t.rows.map (fun row => cols.map (fun c =>
      match (t.cols.zip row).find? (fun p => p.1 == c) with
      | some p => p.2
      | none => fill)) }

/-- `_norm_authors` applied to a cell. Raw CSV cells are scalars; a list
cell never reaches the normalizer in the Python code. -/
def normAuthorsCell : Cell → Cell
  | .text o => .text (some (norm_authors o))
  | .tags l => .tags l

/-- `_norm_doi` applied to a cell. -/
def normDoiCell : Cell → Cell
  | .text o => .text (some (norm_doi o))
  | .tags l => .tags l

/-- `_norm_keywords` applied to a cell. -/
def normKeywordsCell : Cell → Cell
  | .text o => .tags (norm_keywords o)
  | .tags l => .tags l

/-- `harmonize_scopus` from harmonize.py at the table level. -/
def harmonize_scopus (t : Table) : Table :=
  let t := { t with cols := renameCols SCOPUS_MAP t.cols }
  let t := setColWith t "source_db" (fun _ => .text (some "Scopus"))
  let t := if t.cols.contains "authors" then mapCol t "authors" normAuthorsCell else t
  let t := if t.cols.contains "doi" then mapCol t "doi" normDoiCell else t
  let t := if t.cols.contains "author_keywords" then
    mapCol t "author_keywords" normKeywordsCell else t
  let t := if t.cols.contains "index_keywords" then
    mapCol t "index_keywords" normKeywordsCell else t
  reindexTo t CANONICAL (.text (some ""))

/-- `harmonize_wos` from harmonize.py at the table level. -/
def harmonize_wos (t : Table) : Table :=
  let t := { t with cols := renameCols WOS_MAP t.cols }
  let t := setColWith t "source_db" (fun _ => .text (some "WoS"))
  let t := if !t.cols.contains "authors" && t.cols.contains "authors_full" then
    setColWith t "authors" (fun row => getCell t.cols row "authors_full") else t
  let t := if t.cols.contains "authors" then mapCol t "authors" normAuthorsCell else t
  let t := if t.cols.contains "doi" then mapCol t "doi" normDoiCell else t
  let t := if t.cols.contains "author_keywords" then
    mapCol t "author_keywords" normKeywordsCell else t
  let t := if t.cols.contains "index_keywords" then
    mapCol t "index_keywords" normKeywordsCell else t
  reindexTo t CANONICAL (.text (some ""))

def scopus_keys : List String :=
  ["Authors", "Source title", "Author(s) ID", "Affiliations"]

def wos_keys : List String := ["AU", "TI", "SO", "C1", "DI"]

/-- `detect_source` from utils_io.py: nonempty intersection with either key
set, Scopus tested first. -/
def detect_source (cols : List String) : String :=
  if cols.any (fun c => scopus_keys.contains c) then "Scopus"
  else if cols.any (fun c => wos_keys.contains c) then "Web of Science"
  else "Unknown"

/-- `_detect_source` from harmonize.py (same shape, different key sets). -/
def detect_source_harmonize (cols : List String) : String :=
  if cols.any (fun c => c == "Source title" || c == "Cited by") then "Scopus"
  else if cols.any (fun c => c == "SO" || c == "PY" || c == "AU") then "WoS"
  else "Unknown"

/-- The info dict returned by `read_any_table`. -/
structure ReadInfo where
  df : Table
  source : String
  records : Nat
  columns : List String
deriving DecidableEq

/-- The detect-and-harmonize stage of `read_any_table` (utils_io.py lines
83-98). File decoding and extension handling are external I/O and precede
this stage; the only failure in the Python function (`ValueError` for an
unsupported file extension) happens there. From this point on the function
is total: an unrecognized table takes the `df.copy()` branch. -/
def read_any_table_detect (df : Table) : ReadInfo :=
  let src := detect_source df.cols
  let dfH :=
    if src == "Scopus" then harmonize_scopus df
    else if src == "Web of Science" then harmonize_wos df
    else df
  { df := dfH, source := src, records := dfH.rows.length, columns := dfH.cols }

/-! ## Properties of keep-first deduplication -/

theorem dedupeByAux_sublist {α κ : Type} [DecidableEq κ] (key : α → κ)
    (seen : List κ) (l : List α) : (dedupeByAux key seen l).Sublist l := by
  induction l generalizing seen with
  | nil => exact List.Sublist.refl _
  | cons r rs ih =>
    simp only [dedupeByAux]
    split
    · exact (ih seen).trans (List.sublist_cons_self r rs)
    · exact (ih _).cons₂ r

theorem dedupeBy_sublist {α κ : Type} [DecidableEq κ] (key : α → κ)
    (l : List α) : (dedupeBy key l).Sublist l :=
  dedupeByAux_sublist key [] l

theorem mem_dedupeBy {α κ : Type} [DecidableEq κ] {key : α → κ}
    {l : List α} {r : α} (h : r ∈ dedupeBy key l) : r ∈ l :=
  (dedupeBy_sublist key l).subset h

theorem dedupeByAux_key_not_seen {α κ : Type} [DecidableEq κ] {key : α → κ} :
    ∀ {seen : List κ} {l : List α} {r : α},
      r ∈ dedupeByAux key seen l → key r ∉ seen := by
  intro seen l
  induction l generalizing seen with
  | nil => intro r h; cases h
  | cons a as ih =>
    intro r h
    simp only [dedupeByAux] at h
    split at h
    · exact ih h
    · next hks =>
      rcases List.mem_cons.mp h with rfl | hmem
      · exact hks
      · intro hc
        exact ih hmem (List.mem_cons_of_mem _ hc)

theorem dedupeByAux_filter_of_seen {α κ : Type} [DecidableEq κ] {key : α → κ}
    {seen : List κ} {l : List α} {k : κ} (hk : k ∈ seen) :
    (dedupeByAux key seen l).filter (fun r => decide (key r = k)) = [] := by
  rw [List.filter_eq_nil_iff]
  intro r hr
  simp only [decide_eq_true_eq]
  intro hEq
  exact dedupeByAux_key_not_seen hr (hEq ▸ hk)

theorem dedupeByAux_filter_take {α κ : Type} [DecidableEq κ] {key : α → κ}
    {k : κ} : ∀ {seen : List κ} (l : List α), k ∉ seen →
    (dedupeByAux key seen l).filter (fun r => decide (key r = k))
      = (l.filter (fun r => decide (key r = k))).take 1 := by
  intro seen l
  induction l generalizing seen with
  | nil => intro _; rfl
  | cons a as ih =>
    intro hk
    simp only [dedupeByAux]
    by_cases hs : key a ∈ seen
    · rw [if_pos hs]
      have hak : ¬ key a = k := fun h => hk (h ▸ hs)
      rw [List.filter_cons_of_neg (by simpa using hak)]
      exact ih hk
    · rw [if_neg hs]
      by_cases hak : key a = k
      · rw [List.filter_cons_of_pos (by simpa using hak),
          List.filter_cons_of_pos (by simpa using hak),
          dedupeByAux_filter_of_seen (by rw [hak]; exact List.mem_cons_self _ _)]
        rfl
      · rw [List.filter_cons_of_neg (by simpa using hak),
          List.filter_cons_of_neg (by simpa using hak)]
        exact ih (by
          intro hc
          rcases List.mem_cons.mp hc with h | h
          · exact hak h.symm
          · exact hk h)

theorem dedupeBy_filter_take {α κ : Type} [DecidableEq κ] {key : α → κ}
    {k : κ} (l : List α) :
    (dedupeBy key l).filter (fun r => decide (key r = k))
      = (l.filter (fun r => decide (key r = k))).take 1 :=
  dedupeByAux_filter_take l (by simp)

theorem dedupeByAux_map_key_nodup {α κ : Type} [DecidableEq κ] {key : α → κ} :
    ∀ {seen : List κ} {l : List α}, ((dedupeByAux key seen l).map key).Nodup := by
  intro seen l
  induction l generalizing seen with
  | nil => exact List.nodup_nil
  | cons a as ih =>
    simp only [dedupeByAux]
    split
    · exact ih
    · simp only [List.map_cons, List.nodup_cons]
      refine ⟨?_, ih⟩
      intro hmem
      rcases List.mem_map.mp hmem with ⟨r, hr, hkey⟩
      exact dedupeByAux_key_not_seen hr (hkey ▸ List.mem_cons_self _ _)

theorem dedupeByAux_eq_self {α κ : Type} [DecidableEq κ] {key : α → κ} :
    ∀ {seen : List κ} {l : List α}, (l.map key).Nodup →
      (∀ r ∈ l, key r ∉ seen) → dedupeByAux key seen l = l := by
  intro seen l
  induction l generalizing seen with
  | nil => intro _ _; rfl
  | cons a as ih =>
    intro hnd hseen
    simp only [List.map_cons, List.nodup_cons] at hnd
    simp only [dedupeByAux]
    rw [if_neg (hseen a (List.mem_cons_self _ _))]
    congr 1
    refine ih hnd.2 ?_
    intro r hr hc
    rcases List.mem_cons.mp hc with h | h
    · exact hnd.1 (h ▸ List.mem_map_of_mem key hr)
    · exact hseen r (List.mem_cons_of_mem _ hr) h

theorem dedupeBy_idem {α κ : Type} [DecidableEq κ] (key : α → κ) (l : List α) :
    dedupeBy key (dedupeBy key l) = dedupeBy key l :=
  dedupeByAux_eq_self dedupeByAux_map_key_nodup (by simp)

theorem dedupeByAux_eq_nil_of_seen {α κ : Type} [DecidableEq κ] {key : α → κ} :
    ∀ {seen : List κ} {l : List α}, (∀ r ∈ l, key r ∈ seen) →
      dedupeByAux key seen l = [] := by
  intro seen l
  induction l generalizing seen with
  | nil => intro _; rfl
  | cons a as ih =>
    intro h
    simp only [dedupeByAux]
    rw [if_pos (h a (List.mem_cons_self _ _))]
    exact ih fun r hr => h r (List.mem_cons_of_mem _ hr)

theorem dedupeBy_const_key {α κ : Type} [DecidableEq κ] {key : α → κ} {c : κ}
    (l : List α) (h : ∀ r ∈ l, key r = c) : dedupeBy key l = l.take 1 := by
  cases l with
  | nil => rfl
  | cons a as =>
    have h1 : dedupeByAux key [key a] as = [] :=
      dedupeByAux_eq_nil_of_seen (fun r hr => by
        rw [h r (List.mem_cons_of_mem _ hr), ← h a (List.mem_cons_self _ _)]
        exact List.mem_cons_self _ _)
    simp [dedupeBy, dedupeByAux, h1]

/-- The normal form of `merge_and_dedupe`. -/
theorem merge_and_dedupe_eq (dfs : List (List Record)) :
    merge_and_dedupe dfs
      = dedupeBy (fun r => r.doi) ((dfs.flatten.filter titled).filter hasDoi)
        ++ dedupeBy noDoiKey
            ((dfs.flatten.filter titled).filter (fun r => !hasDoi r)) :=
  rfl

/-- `merge_and_dedupe` of a single table. -/
theorem merge_single (X : List Record) :
    merge_and_dedupe [X]
      = dedupeBy (fun r => r.doi) ((X.filter titled).filter hasDoi)
        ++ dedupeBy noDoiKey ((X.filter titled).filter (fun r => !hasDoi r)) := by
  rw [merge_and_dedupe_eq]
  simp

/-- Merging a table that is already split into a DOI block followed by a
non-DOI block (all rows titled) deduplicates each block in place. -/
theorem merge_parts_roundtrip (dd dn : List Record)
    (hdd : ∀ r ∈ dd, titled r = true ∧ hasDoi r = true)
    (hdn : ∀ r ∈ dn, titled r = true ∧ hasDoi r = false) :
    merge_and_dedupe [dd ++ dn]
      = dedupeBy (fun r => r.doi) dd ++ dedupeBy noDoiKey dn := by
  rw [merge_single]
  have h1 : (dd ++ dn).filter titled = dd ++ dn := List.filter_eq_self.mpr (by
    intro r hr
    rcases List.mem_append.mp hr with h | h
    · exact (hdd r h).1
    · exact (hdn r h).1)
  have h2 : (dd ++ dn).filter hasDoi = dd := by
    rw [List.filter_append, List.filter_eq_self.mpr (fun r h => (hdd r h).2),
      List.filter_eq_nil_iff.mpr (by intro r h hq; rw [(hdn r h).2] at hq; cases hq),
      List.append_nil]
  have h3 : (dd ++ dn).filter (fun r => !hasDoi r) = dn := by
    rw [List.filter_append,
      List.filter_eq_nil_iff.mpr (by
        intro r h hq
        rw [Bool.not_eq_true', (hdd r h).2] at hq
        cases hq),
      List.nil_append,
      List.filter_eq_self.mpr (by
        intro r h
        rw [Bool.not_eq_true', (hdn r h).2])]
  rw [h1, h2, h3]

/-- Core of deduplication idempotence. -/
theorem merge_idem_core (T : List Record) :
    merge_and_dedupe [merge_and_dedupe [T]] = merge_and_dedupe [T] := by
  have hdd : ∀ r ∈ dedupeBy (fun r => r.doi) ((T.filter titled).filter hasDoi),
      titled r = true ∧ hasDoi r = true := by
    intro r hr
    have h1 := List.mem_filter.mp (mem_dedupeBy hr)
    exact ⟨(List.mem_filter.mp h1.1).2, h1.2⟩
  have hdn : ∀ r ∈ dedupeBy noDoiKey
      ((T.filter titled).filter (fun r => !hasDoi r)),
      titled r = true ∧ hasDoi r = false := by
    intro r hr
    have h1 := List.mem_filter.mp (mem_dedupeBy hr)
    exact ⟨(List.mem_filter.mp h1.1).2, by simpa using h1.2⟩
  rw [merge_single T, merge_parts_roundtrip _ _ hdd hdn,
    dedupeBy_idem, dedupeBy_idem]

/-! ## Scenario records -/

def recA : Record := { title := some "T1", doi := some "10.1/x" }

def recB : Record := { title := some "T2", doi := some "10.1/x" }

def recS1 : Record :=
  { title := some "T", authors := some "Smith; Alpha", year := some 2020,
    doi := some "" }

def recS2 : Record :=
  { title := some "T", authors := some "Smith; Beta", year := some 2020,
    doi := some "" }

def recS3 : Record :=
  { title := some "T", authors := some "Jones; Gamma", year := some 2020,
    doi := some "" }

def nanRec1 : Record := { title := some "T1" }

def nanRec2 : Record := { title := some "T2" }

/-! ## Claim theorems: the deduplicator -/

/-- C1: for every input list of tables and every DOI value with non-empty
string form, the records of `merge_and_dedupe`'s output carrying that DOI
are exactly the first record carrying it in the concatenated (title-filtered)
input — deduplication within the DOI partition is by exact DOI equality,
keeping the first occurrence in concatenation order. In particular, two
one-record tables with identical doi "10.1/x" but different titles merge to
exactly the first record. -/
theorem merge_dedupes_doi_keep_first :
    (∀ (dfs : List (List Record)) (d : Option String),
      0 < (cellStr d).length →
      (merge_and_dedupe dfs).filter (fun r => decide (r.doi = d))
        = ((dfs.flatten.filter titled).filter
            (fun r => decide (r.doi = d))).take 1)
    ∧ merge_and_dedupe [[recA], [recB]] = [recA] := by
  constructor
  · intro dfs d hd
    rw [merge_and_dedupe_eq, List.filter_append]
    have hno : (dedupeBy noDoiKey
        ((dfs.flatten.filter titled).filter (fun r => !hasDoi r))).filter
          (fun r => decide (r.doi = d)) = [] := by
      rw [List.filter_eq_nil_iff]
      intro r hr
      have hnd := (List.mem_filter.mp (mem_dedupeBy hr)).2
      simp only [decide_eq_true_eq]
      intro hEq
      rw [Bool.not_eq_true'] at hnd
      unfold hasDoi at hnd
      rw [hEq] at hnd
      simp at hnd
      omega
    rw [hno, List.append_nil, dedupeBy_filter_take, List.filter_filter]
    congr 1
    apply List.filter_congr
    intro r _
    by_cases h : r.doi = d
    · simp [h, hasDoi, hd]
    · simp [h]
  · decide

/-- C2: for every input list of tables and every composite key
(title, year, first author), the non-DOI records of `merge_and_dedupe`'s
output carrying that key are exactly the first non-DOI record carrying it in
the concatenated (title-filtered) input — deduplication within the non-DOI
partition is by the exact (title, year, first-author) key, keeping the first
occurrence. In particular, two empty-DOI records with title "T", year 2020
and first author "Smith" collapse to one, while a third differing only in
first author "Jones" survives as a second row. -/
theorem merge_dedupes_no_doi_composite_key :
    (∀ (dfs : List (List Record)) (k : Option String × Option Int × String),
      (merge_and_dedupe dfs).filter
          (fun r => !hasDoi r && decide (noDoiKey r = k))
        = ((dfs.flatten.filter titled).filter
            (fun r => !hasDoi r && decide (noDoiKey r = k))).take 1)
    ∧ merge_and_dedupe [[recS1, recS2, recS3]] = [recS1, recS3] := by
  constructor
  · intro dfs k
    rw [merge_and_dedupe_eq, List.filter_append]
    have hdd : (dedupeBy (fun r => r.doi)
        ((dfs.flatten.filter titled).filter hasDoi)).filter
          (fun r => !hasDoi r && decide (noDoiKey r = k)) = [] := by
      rw [List.filter_eq_nil_iff]
      intro r hr
      have hd := (List.mem_filter.mp (mem_dedupeBy hr)).2
      simp [hd]
    rw [hdd, List.nil_append]
    rw [List.filter_congr (p := fun r => !hasDoi r && decide (noDoiKey r = k))
      (q := fun r => decide (noDoiKey r = k)) (by
        intro r hr
        have hnd := (List.mem_filter.mp (mem_dedupeBy hr)).2
        simp [hnd])]
    rw [dedupeBy_filter_take, List.filter_filter]
    congr 1
    apply List.filter_congr
    intro r _
    simp [Bool.and_comm]
  · decide

/-- C3: with table A all-DOI and table B all-non-DOI, the output of
`merge_and_dedupe [A, B]` is a block of A-derived survivors followed by a
block of B-derived survivors. -/
theorem merge_lists_doi_partition_first :
    ∀ (A B : List Record),
      (∀ r ∈ A, hasDoi r = true) → (∀ r ∈ B, hasDoi r = false) →
      ∃ LA LB, merge_and_dedupe [A, B] = LA ++ LB
        ∧ LA.Sublist A ∧ LB.Sublist B := by
  intro A B hA hB
  refine ⟨dedupeBy (fun r => r.doi) (A.filter titled),
    dedupeBy noDoiKey (B.filter titled), ?_, ?_, ?_⟩
  · rw [merge_and_dedupe_eq]
    have hflat : ([A, B] : List (List Record)).flatten = A ++ B := by simp
    have e1 : (A.filter titled).filter hasDoi = A.filter titled :=
      List.filter_eq_self.mpr (fun r hr => hA r (List.mem_filter.mp hr).1)
    have e2 : (B.filter titled).filter hasDoi = [] :=
      List.filter_eq_nil_iff.mpr (by
        intro r hr hq
        rw [hB r (List.mem_filter.mp hr).1] at hq
        cases hq)
    have e3 : (A.filter titled).filter (fun r => !hasDoi r) = [] :=
      List.filter_eq_nil_iff.mpr (by
        intro r hr hq
        rw [Bool.not_eq_true', hA r (List.mem_filter.mp hr).1] at hq
        cases hq)
    have e4 : (B.filter titled).filter (fun r => !hasDoi r) = B.filter titled :=
      List.filter_eq_self.mpr (by
        intro r hr
        rw [Bool.not_eq_true', hB r (List.mem_filter.mp hr).1])
    rw [hflat, List.filter_append, List.filter_append, List.filter_append,
      e1, e2, e3, e4, List.append_nil, List.nil_append]
  · exact (dedupeBy_sublist _ _).trans (List.filter_sublist _)
  · exact (dedupeBy_sublist _ _).trans (List.filter_sublist _)

/-- A canonical table with no internal duplicates: within the titled rows,
the DOI partition has pairwise distinct DOI values and the non-DOI partition
has pairwise distinct composite keys. -/
def internallyDeduped (T : List Record) : Prop :=
  (((T.filter titled).filter hasDoi).map (fun r => r.doi)).Nodup
    ∧ (((T.filter titled).filter (fun r => !hasDoi r)).map noDoiKey).Nodup

/-- C9: deduplication is idempotent — re-merging the merge of a table (in
particular of one already internally deduplicated) returns it unchanged. -/
theorem merge_and_dedupe_idempotent :
    ∀ T : List Record, internallyDeduped T →
      merge_and_dedupe [merge_and_dedupe [T]] = merge_and_dedupe [T] :=
  fun T _ => merge_idem_core T

theorem merge_and_dedupe_idempotent_witness :
    merge_and_dedupe [merge_and_dedupe [[recA, recS1]]]
      = merge_and_dedupe [[recA, recS1]] :=
  merge_and_dedupe_idempotent [recA, recS1] (by
    constructor
    · decide
    · decide)

/-- C10: a record whose doi cell is NaN is classified into the `has_doi`
partition, because its string form is "nan" (length 3 > 0); consequently in
a table of titled NaN-doi records every record beyond the first is removed
as a DOI-duplicate (NaN keys compare equal), not deduplicated by the
(title, year, first author) composite key. -/
theorem nan_doi_records_are_doi_duplicates :
    (∀ r : Record, r.doi = none → hasDoi r = true ∧ cellStr r.doi = "nan")
    ∧ (∀ rs : List Record, (∀ r ∈ rs, r.doi = none ∧ titled r = true) →
        merge_and_dedupe [rs] = rs.take 1) := by
  constructor
  · intro r h
    constructor
    · unfold hasDoi
      rw [h]
      decide
    · rw [h]
      rfl
  · intro rs h
    rw [merge_single]
    have h1 : rs.filter titled = rs :=
      List.filter_eq_self.mpr (fun r hr => (h r hr).2)
    have h2 : rs.filter hasDoi = rs :=
      List.filter_eq_self.mpr (fun r hr => by
        unfold hasDoi
        rw [(h r hr).1]
        decide)
    have h3 : rs.filter (fun r => !hasDoi r) = [] :=
      List.filter_eq_nil_iff.mpr (by
        intro r hr hq
        have hd : hasDoi r = true := by
          unfold hasDoi
          rw [(h r hr).1]
          decide
        rw [Bool.not_eq_true', hd] at hq
        cases hq)
    rw [h1, h2, h3, dedupeBy_const_key rs (fun r hr => (h r hr).1)]
    simp [dedupeBy, dedupeByAux]

theorem nan_doi_records_are_doi_duplicates_witness :
    (hasDoi nanRec1 = true ∧ cellStr nanRec1.doi = "nan")
      ∧ merge_and_dedupe [[nanRec1, nanRec2]] = [nanRec1] :=
  ⟨nan_doi_records_are_doi_duplicates.1 nanRec1 rfl,
    nan_doi_records_are_doi_duplicates.2 [nanRec1, nanRec2] (by decide)⟩

theorem merge_dedupes_doi_keep_first_witness :
    (merge_and_dedupe [[recA], [recB]]).filter
        (fun r => decide (r.doi = some "10.1/x"))
      = ((([[recA], [recB]] : List (List Record)).flatten.filter titled).filter
          (fun r => decide (r.doi = some "10.1/x"))).take 1 :=
  merge_dedupes_doi_keep_first.1 [[recA], [recB]] (some "10.1/x") (by decide)

theorem merge_lists_doi_partition_first_witness :
    ∃ LA LB, merge_and_dedupe [[recA], [recS1]] = LA ++ LB
      ∧ LA.Sublist [recA] ∧ LB.Sublist [recS1] :=
  merge_lists_doi_partition_first [recA] [recS1] (by decide) (by decide)

/-! ## Claim theorems: author normalization (C4) -/

theorem dedupeBy_id_nodup {α : Type} [DecidableEq α] (l : List α) :
    (dedupeBy id l).Nodup := by
  have h := @dedupeByAux_map_key_nodup α α _ id [] l
  simpa using h

/-- C4 counterexample: because `,` is replaced by `;` before splitting,
"Smith, J." is broken into the two entries "Smith" and "J.", so the spec's
scenario output `["Smith, J.", "Lee, K."]` is not what the code returns. -/
theorem norm_authors_scenario_counterexample :
    norm_authors_parts (some "Smith, J.; Lee, K.; Smith, J.")
        = ["Smith", "J.", "Lee", "K."]
      ∧ norm_authors_parts (some "Smith, J.; Lee, K.; Smith, J.")
        ≠ ["Smith, J.", "Lee, K."] := by
  constructor
  · decide
  · decide

/-- C4 amended: `_norm_authors` splits on `;`, `,`, `|` (and `&`), strips
whitespace, deletes "et al" tokens (case-insensitive), removes empty entries
and removes exact duplicates preserving first-seen order; since commas are
delimiters, `normalize_authors("Smith, J.; Lee, K.; Smith, J.")` yields the
entries `["Smith", "J.", "Lee", "K."]` (joined as "Smith; J.; Lee; K."),
not `["Smith, J.", "Lee, K."]`. -/
theorem norm_authors_amended :
    (norm_authors_parts (some "Smith, J.; Lee, K.; Smith, J.")
        = ["Smith", "J.", "Lee", "K."]
      ∧ norm_authors (some "Smith, J.; Lee, K.; Smith, J.")
        = "Smith; J.; Lee; K.")
    ∧ (∀ txt, (norm_authors_parts txt).Nodup)
    ∧ (∀ txt p, p ∈ norm_authors_parts txt → p ≠ "") := by
  refine ⟨⟨by decide, by decide⟩, ?_, ?_⟩
  · intro txt
    cases txt with
    | none => exact List.nodup_nil
    | some s => exact dedupeBy_id_nodup _
  · intro txt p hp hpe
    cases txt with
    | none => cases hp
    | some s =>
      simp only [norm_authors_parts] at hp
      have h1 := mem_dedupeBy hp
      rcases List.mem_map.mp h1 with ⟨q, hq, rfl⟩
      have h2 := (List.mem_filter.mp hq).2
      have h3 : q = [] := by simpa using congrArg String.data hpe
      rw [h3] at h2
      simp at h2

theorem norm_authors_amended_witness : "Smith" ≠ "" :=
  norm_authors_amended.2.2 (some "Smith, J.; Lee, K.; Smith, J.") "Smith"
    (by decide)

/-! ## Claim theorems: keyword co-occurrence frequencies (C5) -/

/-- Modelled from the spec: "node frequency is the count of records in which
the entity appeared at least once". Stated for comparison with the
implementation's counter, which skips records entirely when the keyword list
has fewer than two entries. -/
def specRecordFrequency (rows : List (Option (List String))) (k : String) :
    Nat :=
  rows.countP (fun row =>
    match row with
    | some l => l.contains k
    | none => false)

/-- C5 counterexample: in the table whose keyword lists are `["a"]` and
`["a","b"]`, the entity "a" appears in two records, but the builder's
frequency counter reports 1 — single-keyword records are skipped before
counting. -/
theorem kw_freq_counterexample :
    getFreq (keyword_cooccurrence_graph [some ["a"], some ["a", "b"]] 1).2 "a"
        = 1
      ∧ specRecordFrequency [some ["a"], some ["a", "b"]] "a" = 2
      ∧ (1 : Nat) ≠ 2 := by
  refine ⟨by decide, by decide, by decide⟩

theorem getFreq_bumpFreq (m : FreqMap) (a k : String) :
    getFreq (bumpFreq m a) k = getFreq m k + (if k = a then 1 else 0) := by
  induction m with
  | nil =>
    simp only [bumpFreq, getFreq]
    by_cases h : a = k
    · rw [if_pos h, if_pos h.symm]
    · rw [if_neg h, if_neg (fun hc : k = a => h hc.symm)]
  | cons hd tl ih =>
    obtain ⟨k', w⟩ := hd
    simp only [bumpFreq]
    by_cases h1 : k' = a
    · rw [if_pos h1]
      simp only [getFreq]
      by_cases h2 : k' = k
      · rw [if_pos h2, if_pos h2, if_pos (h2.symm.trans h1)]
      · rw [if_neg h2, if_neg h2, if_neg (fun hc : k = a => h2 (h1.trans hc.symm))]
        omega
    · rw [if_neg h1]
      simp only [getFreq]
      by_cases h2 : k' = k
      · rw [if_pos h2, if_pos h2, if_neg (fun hc : k = a => h1 (h2.trans hc))]
        omega
      · rw [if_neg h2, if_neg h2]
        exact ih

theorem getFreq_foldl_bumpFreq (s : List String) (m : FreqMap) (k : String) :
    getFreq (s.foldl bumpFreq m) k = getFreq m k + s.count k := by
  induction s generalizing m with
  | nil => simp
  | cons a s ih =>
    simp only [List.foldl_cons]
    rw [ih, getFreq_bumpFreq]
    by_cases h : k = a
    · simp [h, List.count_cons]
      omega
    · simp [List.count_cons, h, fun hc : a = k => h hc.symm]

theorem mem_insertSorted {x a : String} : ∀ {l : List String},
    x ∈ insertSorted a l ↔ x = a ∨ x ∈ l := by
  intro l
  induction l with
  | nil => simp [insertSorted]
  | cons b bs ih =>
    simp only [insertSorted]
    split
    · simp [List.mem_cons]
    · simp only [List.mem_cons, ih]
      tauto

theorem nodup_insertSorted {a : String} : ∀ {l : List String},
    a ∉ l → l.Nodup → (insertSorted a l).Nodup := by
  intro l
  induction l with
  | nil => intro _ _; simp [insertSorted]
  | cons b bs ih =>
    intro ha hn
    rw [List.nodup_cons] at hn
    simp only [insertSorted]
    split
    · exact List.nodup_cons.mpr ⟨ha, List.nodup_cons.mpr hn⟩
    · refine List.nodup_cons.mpr ⟨?_, ?_⟩
      · rw [mem_insertSorted]
        rintro (rfl | hb)
        · exact ha (List.mem_cons_self _ _)
        · exact hn.1 hb
      · exact ih (fun h => ha (List.mem_cons_of_mem _ h)) hn.2

theorem sortedSet_nodup_mem (l : List String) :
    (sortedSet l).Nodup ∧ ∀ x, x ∈ sortedSet l ↔ x ∈ l := by
  have key : ∀ m : List String, m.Nodup →
      (m.foldr insertSorted []).Nodup
        ∧ ∀ x, x ∈ m.foldr insertSorted [] ↔ x ∈ m := by
    intro m
    induction m with
    | nil => intro _; simp
    | cons a as ih =>
      intro hm
      rw [List.nodup_cons] at hm
      obtain ⟨hnd, hmem⟩ := ih hm.2
      simp only [List.foldr_cons]
      refine ⟨nodup_insertSorted (fun h => hm.1 ((hmem a).mp h)) hnd, ?_⟩
      intro x
      rw [mem_insertSorted, hmem x, List.mem_cons]
  have h := key l.dedup (List.nodup_dedup l)
  exact ⟨h.1, fun x => (h.2 x).trans List.mem_dedup⟩

theorem count_sortedSet (l : List String) (k : String) :
    (sortedSet l).count k = if k ∈ l then 1 else 0 := by
  obtain ⟨h1, h2⟩ := sortedSet_nodup_mem l
  rw [List.count_eq_of_nodup h1]
  by_cases hk : k ∈ l
  · rw [if_pos ((h2 k).mpr hk), if_pos hk]
  · rw [if_neg (fun hc => hk ((h2 k).mp hc)), if_neg hk]

/-- The predicate under which a record contributes to the counter of `k`:
it is a list of at least two keywords containing `k`. -/
def kwCounted (k : String) (row : Option (List String)) : Bool :=
  match row with
  | some l => decide (2 ≤ l.length) && l.contains k
  | none => false

theorem getFreq_kwBuild (rows : List (Option (List String))) (k : String) :
    getFreq (kwBuild rows).1 k = rows.countP (kwCounted k) := by
  suffices h : ∀ acc : FreqMap × Edges,
      getFreq (rows.foldl kwStep acc).1 k
        = getFreq acc.1 k + rows.countP (kwCounted k) by
    have h0 := h ([], [])
    simpa [kwBuild, getFreq] using h0
  induction rows with
  | nil => intro acc; simp
  | cons row rows ih =>
    intro acc
    simp only [List.foldl_cons, List.countP_cons]
    rw [ih]
    cases row with
    | none => simp [kwStep, kwCounted]
    | some l =>
      by_cases hl : l.length < 2
      · have : ¬ 2 ≤ l.length := by omega
        simp [kwStep, hl, kwCounted, this]
      · simp only [kwStep, if_neg hl]
        rw [getFreq_foldl_bumpFreq, count_sortedSet]
        have h2 : 2 ≤ l.length := by omega
        by_cases hk : k ∈ l
        · simp [kwCounted, h2, hk]
          omega
        · simp [kwCounted, h2, hk]

/-- C5 amended: a keyword's node frequency equals the number of records
whose keyword list has at least two entries and contains it (records with
fewer than two keywords are skipped entirely, so they do not count); and
pruning keeps exactly the nodes with frequency at least `min_frequency`,
dropping all edges with a pruned endpoint. -/
theorem kw_freq_and_prune_amended :
    (∀ rows k, getFreq (kwBuild rows).1 k = rows.countP (kwCounted k))
    ∧ (∀ rows minf k, k ∈ (keyword_cooccurrence_graph rows minf).1.nodes →
        minf ≤ getFreq (kwBuild rows).1 k)
    ∧ (∀ rows minf e, e ∈ (keyword_cooccurrence_graph rows minf).1.edges →
        e.1.1 ∈ (keyword_cooccurrence_graph rows minf).1.nodes
          ∧ e.1.2 ∈ (keyword_cooccurrence_graph rows minf).1.nodes) := by
  refine ⟨getFreq_kwBuild, ?_, ?_⟩
  · intro rows minf k hk
    simp only [keyword_cooccurrence_graph] at hk
    have := (List.mem_filter.mp hk).2
    simpa using this
  · intro rows minf e he
    simp only [keyword_cooccurrence_graph] at he ⊢
    have h2 := (List.mem_filter.mp he).2
    simp only [List.contains, List.elem_eq_mem, decide_eq_true_eq,
      Bool.and_eq_true] at h2
    exact h2

theorem kw_freq_and_prune_amended_witness :
    2 ≤ getFreq (kwBuild [some ["a", "b"], some ["a", "b"]]).1 "a" :=
  kw_freq_and_prune_amended.2.1 [some ["a", "b"], some ["a", "b"]] 2 "a"
    (by decide)

/-! ## Claim theorems: co-authorship pruning (C6) -/

/-- C6 counterexample: on the path graph A-B-C-D (one co-authored paper per
edge) with threshold 2, the pruned graph keeps B and C but the edge
endpoints' degrees drop to 1 inside the pruned graph, below the threshold. -/
theorem coauth_prune_degree_counterexample :
    "B" ∈ (coauthorship_graph [some "A;B", some "B;C", some "C;D"] 2).nodes
      ∧ degree (coauthorship_graph [some "A;B", some "B;C", some "C;D"] 2).edges
          "B" = 1
      ∧ ¬ (2 ≤ degree
            (coauthorship_graph [some "A;B", some "B;C", some "C;D"] 2).edges
            "B") := by
  refine ⟨by decide, by decide, by decide⟩

/-- C6 amended: after building the co-authorship graph with threshold k,
every node remaining in the pruned graph has degree at least k measured in
the full graph before pruning (degrees measured in the pruned graph itself
can drop below k, as the counterexample shows). -/
theorem coauth_prune_degree_amended :
    ∀ (rows : List (Option String)) (k : Nat) (n : String),
      n ∈ (coauthorship_graph rows k).nodes →
      k ≤ degree (coauthEdges rows) n := by
  intro rows k n hn
  simp only [coauthorship_graph, subgraph_prune] at hn
  have := (List.mem_filter.mp hn).2
  simpa using this

theorem coauth_prune_degree_amended_witness :
    2 ≤ degree (coauthEdges [some "A;B;C"]) "A" :=
  coauth_prune_degree_amended [some "A;B;C"] 2 "A" (by decide)

/-! ## Claim theorems: unknown-source handling (C7) -/

def fooTable : Table := { cols := ["Foo"], rows := [[.text (some "x")]] }

/-- C7 counterexample: a table matching no known source signature is not
rejected — `read_any_table` returns it unchanged (unharmonized) with source
tag "Unknown"; no `SchemaMismatch` failure exists in the code. -/
theorem unknown_table_counterexample :
    read_any_table_detect fooTable
      = { df := fooTable, source := "Unknown", records := 1,
          columns := ["Foo"] } := by
  decide

/-- C7 amended: when a raw table matches no known source signature,
`read_any_table` does not fail; it reports source "Unknown" in the returned
info dict and passes the table through unharmonized (unchanged). -/
theorem unknown_source_passthrough :
    ∀ t : Table, detect_source t.cols = "Unknown" →
      read_any_table_detect t
        = { df := t, source := "Unknown", records := t.rows.length,
            columns := t.cols } := by
  intro t h
  simp only [read_any_table_detect, h]
  rfl

theorem unknown_source_passthrough_witness :
    read_any_table_detect fooTable
      = { df := fooTable, source := "Unknown",
          records := fooTable.rows.length, columns := fooTable.cols } :=
  unknown_source_passthrough fooTable (by decide)

/-! ## Claim theorems: DOI normalization (C8) -/

/-- The four concrete strings the resolver regex
`https?://(dx\.)?doi\.org/` can match. -/
def doiUrlPrefixes : List (List Char) :=
  ["http://doi.org/".data, "https://doi.org/".data,
   "http://dx.doi.org/".data, "https://dx.doi.org/".data]

/-- No position of the list starts a resolver-URL match. -/
def noDoiUrl : List Char → Bool
  | [] => true
  | c :: cs => (doiUrlHead (c :: cs)).isNone && noDoiUrl cs

theorem subDoiUrlF_no_match :
    ∀ (n : Nat) (t : List Char), noDoiUrl t = true → subDoiUrlF n t = t := by
  intro n
  induction n with
  | zero => intro t _; rfl
  | succ m ih =>
    intro t ht
    cases t with
    | nil => rfl
    | cons c cs =>
      simp only [noDoiUrl, Bool.and_eq_true] at ht
      have h1 : doiUrlHead (c :: cs) = none :=
        Option.isNone_iff_eq_none.mp ht.1
      simp only [subDoiUrlF]
      rw [h1]
      exact congrArg (c :: ·) (ih cs ht.2)

theorem subDoiUrl_of_head {l t : List Char} (h : doiUrlHead l = some t)
    (ht : noDoiUrl t = true) : subDoiUrl l = t := by
  obtain ⟨m, hm⟩ : ∃ m, l.length = m + 1 := by
    cases l with
    | nil =>
      have hnil : doiUrlHead ([] : List Char) = none := rfl
      rw [hnil] at h
      cases h
    | cons a as => exact ⟨as.length, rfl⟩
  unfold subDoiUrl
  rw [hm]
  simp only [subDoiUrlF]
  rw [h]
  exact subDoiUrlF_no_match m t ht

/-- C8: `_norm_doi` is a total function (it cannot raise); NaN and empty
input yield the empty string; and for input whose stripped, lowercased form
starts with one of the four resolver-URL prefixes, the prefix is removed
and the (already stripped, lowercased) remainder is returned. -/
theorem norm_doi_strips_resolver_url :
    (norm_doi none = "" ∧ norm_doi (some "") = "")
    ∧ (∀ (s : String) (p t : List Char), p ∈ doiUrlPrefixes →
        (stripWs s.data).map Char.toLower = p ++ t → noDoiUrl t = true →
        norm_doi (some s) = String.mk t) := by
  refine ⟨⟨rfl, by decide⟩, ?_⟩
  intro s p t hp hs ht
  simp only [norm_doi]
  rw [hs]
  have h1 : doiUrlHead (p ++ t) = some t := by
    simp only [doiUrlPrefixes, List.mem_cons, List.not_mem_nil, or_false] at hp
    rcases hp with rfl | rfl | rfl | rfl <;> rfl
  rw [subDoiUrl_of_head h1 ht]

theorem norm_doi_strips_resolver_url_witness :
    norm_doi (some "  HTTPS://dx.DOI.org/10.5/AbC  ")
      = String.mk "10.5/abc".data :=
  norm_doi_strips_resolver_url.2 "  HTTPS://dx.DOI.org/10.5/AbC  "
    "https://dx.doi.org/".data "10.5/abc".data (by decide) (by decide)
    (by decide)

end BiblioX
